import Mathlib

/-!
Verification development for the refdoc-cli markdown chunker, search index,
reranker and incremental build coordinator.  Each definition is a shallow
embedding of the corresponding TypeScript function; external effects
(markdown parsing, the MiniSearch engine, the file system, SHA-256) are
passed in as explicit parameters.  JS numbers that only ever hold exact
small values are modelled as Nat; reranker scores are modelled as
rationals.  JS string primitives (trim, split, join, endsWith, toLowerCase)
are modelled by structurally recursive functions over character lists so
that all definitions evaluate inside the kernel.
-/

namespace Refdoc


/-- JS whitespace for `String.prototype.trim` (ASCII portion). -/
def wsChar (c : Char) : Bool :=
  c = ' ' || c = '\t' || c = '\n' || c = '\r' || c = '\x0b' || c = '\x0c'

/-- `trim` on a character list: drop whitespace from both ends. -/
def trimL (l : List Char) : List Char :=
  ((l.dropWhile wsChar).reverse.dropWhile wsChar).reverse

/-- JS `s.trim()`. -/
def jsTrim (s : String) : String :=
  String.mk (trimL s.toList)

/-- Worker for `splitChar`: split at every occurrence of `c`. -/
def splitCharL (c : Char) : List Char → List Char → List (List Char)
  | [], acc => [acc.reverse]
  | d :: rest, acc =>
    if d = c then acc.reverse :: splitCharL c rest []
    else splitCharL c rest (d :: acc)

/-- JS `s.split(c)` for a single-character separator. -/
def splitChar (c : Char) (s : String) : List String :=
  (splitCharL c s.toList []).map String.mk

/-- JS `parts.join(sep)`. -/
def joinSep (sep : String) : List String → String
  | [] => ""
  | [x] => x
  | x :: y :: rest => x ++ sep ++ joinSep sep (y :: rest)

/-- Does `hay` start with `pre`? -/
def beginsWithL : List Char → List Char → Bool
  | _, [] => true
  | [], _ :: _ => false
  | h :: hs, p :: ps => h = p && beginsWithL hs ps

/-- JS `s.endsWith(suff)`. -/
def endsWithS (s suff : String) : Bool :=
  beginsWithL s.toList.reverse suff.toList.reverse

/-- ASCII lower-casing of one character. -/
def lowerChar (c : Char) : Char :=
  if 'A' ≤ c ∧ c ≤ 'Z' then Char.ofNat (c.toNat + 32) else c

/-- JS `s.toLowerCase()` (ASCII portion). -/
def toLowerS (s : String) : String :=
  String.mk (s.toList.map lowerChar)

/-- JS `s.slice(0, s.length - n)` as used by extension stripping. -/
def dropRightS (s : String) (n : Nat) : String :=
  String.mk (s.toList.take (s.toList.length - n))

/-- Is `needle` a substring of `hay`? (JS `hay.includes(needle)`). -/
def hasSubL : List Char → List Char → Bool
  | [], needle => beginsWithL [] needle
  | c :: t, needle => beginsWithL (c :: t) needle || hasSubL t needle

/-- JS `hay.includes(needle)`. -/
def hasSubS (hay needle : String) : Bool :=
  hasSubL hay.toList needle.toList

/-- `estimateTokens` from chunker.ts: `Math.ceil(text.length / 4)`. -/
def estimateTokens (text : String) : Nat :=
  (text.length + 3) / 4

/-- Strip a trailing `.md` or `.txt` extension, case-insensitively
(`name.replace(/\.(md|txt)$/i, "")`). -/
def stripExt (name : String) : String :=
  let lower := toLowerS name
  if endsWithS lower ".md" then dropRightS name 3
  else if endsWithS lower ".txt" then dropRightS name 4
  else name

/-- `fileTitle` from chunker.ts.  `none` models a call with no argument
(`fileTitle()`), which returns `"Untitled"`.  For `some p` it takes the last
`/`-separated component (falling back to the whole path when that component
is empty, mirroring `|| filePath`) and strips the extension. -/
def fileTitle (filePath : Option String) : String :=
  match filePath with
  | none => "Untitled"
  | some p =>
    let parts := splitChar '/' p
    let nm :=
      match parts.getLast? with
      | some s => if s = "" then p else s
      | none => p
    stripExt nm

/-- Consume an optional `\r` then an optional `\n` (the regex tail `\r?\n?`,
both greedy). -/
def eatCrNl (cs : List Char) : List Char :=
  match cs with
  | '\r' :: '\n' :: r2 => r2
  | '\r' :: rest => rest
  | '\n' :: rest => rest
  | _ => cs

/-- Match `\r?\n---\r?\n?` at the start of the list; on success return the
remainder after the match. -/
def closeDelim (cs : List Char) : Option (List Char) :=
  match cs with
  | '\r' :: '\n' :: '-' :: '-' :: '-' :: rest => some (eatCrNl rest)
  | '\n' :: '-' :: '-' :: '-' :: rest => some (eatCrNl rest)
  | _ => none

/-- Find the earliest position where the closing frontmatter delimiter
matches (the lazy `[\s\S]*?` of the frontmatter regex), returning the
remainder after the delimiter. -/
def findClose : List Char → Option (List Char)
  | [] => none
  | c :: t =>
    match closeDelim (c :: t) with
    | some r => some r
    | none => findClose t

/-- Match `^---\r?\n` at the start of the list. -/
def openDelim (cs : List Char) : Option (List Char) :=
  match cs with
  | '-' :: '-' :: '-' :: '\r' :: '\n' :: rest => some rest
  | '-' :: '-' :: '-' :: '\n' :: rest => some rest
  | _ => none

/-- `content.replace(FRONTMATTER_RE, "")` where
`FRONTMATTER_RE = /^---\r?\n[\s\S]*?\r?\n---\r?\n?/`. -/
def stripFrontmatter (content : String) : String :=
  match openDelim content.toList with
  | some afterOpen =>
    match findClose afterOpen with
    | some rest => String.mk rest
    | none => content
  | none => content

/-- Worker for `splitParas`, i.e. `body.split(/\n\n+/)`.  The Bool flag is
true while consuming the tail of a separator run of newlines (`/\n\n+/`
matches maximal runs of two or more newlines). -/
def spGo : List Char → Bool → List Char → List (List Char)
  | [], _, acc => [acc.reverse]
  | c :: rest, skip, acc =>
    if skip then
      if c = '\n' then spGo rest true acc
      else spGo rest false [c]
    else
      if c = '\n' && rest.head? = some '\n' then
        acc.reverse :: spGo rest true []
      else spGo rest false (c :: acc)

/-- `section.body.split(/\n\n+/)`. -/
def splitParas (s : String) : List String :=
  (spGo s.toList false []).map String.mk

/-- A character list with no two adjacent newlines: such a body contains no
blank-line boundary, so the paragraph splitter cannot divide it further. -/
def noBlank : List Char → Bool
  | [] => true
  | [_] => true
  | a :: b :: rest => !(a = '\n' && b = '\n') && noBlank (b :: rest)

/-- The passage record produced by the chunker (interface `Chunk`). -/
structure Chunk where
  id : String
  file : String
  title : String
  headings : String
  body : String
  startLine : Nat
  endLine : Nat
  tokenEstimate : Nat
deriving Repr, DecidableEq, Inhabited

/-- Intermediate section record (interface `RawSection`). -/
structure RawSection where
  headings : List String
  depth : Nat
  body : String
  startLine : Nat
  endLine : Nat
deriving Repr, DecidableEq, Inhabited

/-- A top-level mdast block node, reduced to what the chunker inspects:
headings carry their depth, flattened text and position; every other node
only its position.  Line numbers are 1-based, relative to the
frontmatter-stripped text, as produced by `fromMarkdown`. -/
inductive MdNode where
  | heading (depth : Nat) (text : String) (startLine endLine : Nat)
  | block (startLine endLine : Nat)
deriving Repr, DecidableEq

/-- `lines.slice(a, b).join("\n")`. -/
def sliceJoin (lines : List String) (a b : Nat) : String :=
  joinSep "\n" ((lines.drop a).take (b - a))

/-- Mutable state of the `extractSections` walk. -/
structure ExtractState where
  sections : List RawSection
  stack : List (String × Nat)
  currentStart : Option Nat
  currentBody : String
deriving Repr

/-- Build the `RawSection` pushed by `pushCurrentSection`. -/
def sectionOf (stack : List (String × Nat)) (body : String) (s e off : Nat) :
    RawSection :=
  { headings := stack.map Prod.fst
    depth := match stack.getLast? with | some h => h.2 | none => 0
    body := jsTrim body
    startLine := s + off
    endLine := e + off }

/-- `pushCurrentSection(endLine)`: flush the current section, if any. -/
def flushCurrent (off : Nat) (st : ExtractState) (endLine : Nat) :
    List RawSection :=
  match st.currentStart with
  | some s => st.sections ++ [sectionOf st.stack st.currentBody s endLine off]
  | none => st.sections

/-- Pop stack entries (top = end of list) while their depth is ≥ `depth`:
the `while` loop of the heading-stack update. -/
def popGE (stack : List (String × Nat)) (depth : Nat) : List (String × Nat) :=
  ((stack.reverse).dropWhile (fun h => depth ≤ h.2)).reverse

/-- Heading-stack update: pop to depth < `depth`, then push. -/
def updateStack (stack : List (String × Nat)) (text : String) (depth : Nat) :
    List (String × Nat) :=
  popGE stack depth ++ [(text, depth)]

/-- Append a node's source lines to the accumulated body
(`if (currentBody) currentBody += "\n\n"; currentBody += text`). -/
def accumBodyText (lines : List String) (st : ExtractState) (s e : Nat) :
    ExtractState :=
  let text := sliceJoin lines (s - 1) e
  { st with currentBody :=
      if st.currentBody ≠ "" then st.currentBody ++ "\n\n" ++ text else text }

/-- One iteration of the `extractSections` node loop. -/
def extractStep (lines : List String) (off : Nat) (st : ExtractState)
    (node : MdNode) : ExtractState :=
  match node with
  | .heading depth text startLine endLine =>
    if depth ≤ 3 then
      { sections := flushCurrent off st (startLine - 1)
        stack := updateStack st.stack text depth
        currentStart := some startLine
        currentBody := "" }
    else
      accumBodyText lines st startLine endLine
  | .block s e => accumBodyText lines st s e

/-- Start line of the first heading of depth ≤ 3, if any
(`children.find((n) => n.type === "heading" && n.depth <= 3)`). -/
def firstSplitHeading (children : List MdNode) : Option Nat :=
  children.findSome? fun n =>
    match n with
    | .heading d _ s _ => if d ≤ 3 then some s else none
    | .block _ _ => none

/-- The preamble section emitted for content before the first depth ≤ 3
heading.  Note the source constructs its headings as `[fileTitle()]` — a
call with *no argument* (its comment reads "deferred — caller knows
filePath"), which yields `"Untitled"`. -/
def preambleSections (children : List MdNode) (lines : List String)
    (off : Nat) : List RawSection :=
  match firstSplitHeading children with
  | some fhl =>
    if 1 < fhl then
      let preBody := jsTrim (joinSep "\n" (lines.take (fhl - 1)))
      if preBody ≠ "" then
        [{ headings := [fileTitle none]
           depth := 0
           body := preBody
           startLine := 1 + off
           endLine := fhl - 1 + off }]
      else []
    else []
  | none => []

/-- `extractSections(children, lines, lineOffset)` from chunker.ts. -/
def extractSections (children : List MdNode) (lines : List String)
    (off : Nat) : List RawSection :=
  let st0 : ExtractState :=
    { sections := preambleSections children lines off
      stack := []
      currentStart := none
      currentBody := "" }
  let st := children.foldl (extractStep lines off) st0
  flushCurrent off st lines.length

/-- `formatHeadingLine(section)` from chunker.ts. -/
def formatHeadingLine (sec : RawSection) : String :=
  match sec.headings.getLast? with
  | none => ""
  | some last =>
    let hashes := String.mk (List.replicate (if sec.depth = 0 then 1 else sec.depth) '#')
    hashes ++ " " ++ last

/-- The merge condition of `mergeSections`:
`tokens < minTokens && prev.depth === current.depth`. -/
def shouldMerge (minTokens : Nat) (prev current : RawSection) : Bool :=
  decide (estimateTokens current.body < minTokens) && decide (prev.depth = current.depth)

/-- Absorb `current` into `prev`: re-insert the absorbed section's heading
line, append the body, extend the line range. -/
def absorb (prev current : RawSection) : RawSection :=
  let heading := formatHeadingLine current
  let addition := if heading ≠ "" then heading ++ "\n\n" ++ current.body else current.body
  { prev with
    body := if prev.body ≠ "" then prev.body ++ "\n\n" ++ addition else addition
    endLine := current.endLine }

/-- The merge loop, carrying the last element of `result` separately so the
in-place mutation of the source maps to a pure update. -/
def mergeLoop (minTokens : Nat) (acc : List RawSection) (prevLast : RawSection) :
    List RawSection → List RawSection
  | [] => acc ++ [prevLast]
  | current :: rest =>
    if shouldMerge minTokens prevLast current then
      mergeLoop minTokens acc (absorb prevLast current) rest
    else
      mergeLoop minTokens (acc ++ [prevLast]) current rest

/-- `mergeSections(sections, minTokens)` from chunker.ts. -/
def mergeSections (sections : List RawSection) (minTokens : Nat) :
    List RawSection :=
  match sections with
  | [] => []
  | [s] => [s]
  | first :: rest => mergeLoop minTokens [] first rest

/-- The paragraph-accumulation loop of `splitSections`, over one oversized
section.  Arguments mirror the loop variables `accumBody`, `subStart`,
`linesConsumed` and the output list. -/
def splitLoop (sec : RawSection) (maxTokens : Nat) :
    List String → String → Nat → Nat → List RawSection → List RawSection
  | [], accumBody, subStart, _, out =>
    if jsTrim accumBody ≠ "" then
      out ++ [{ sec with body := accumBody, startLine := subStart, endLine := sec.endLine }]
    else out
  | para :: rest, accumBody, subStart, linesConsumed, out =>
    let candidate := if accumBody ≠ "" then accumBody ++ "\n\n" ++ para else para
    if maxTokens < estimateTokens candidate ∧ accumBody ≠ "" then
      let bodyLines := (splitChar '\n' accumBody).length
      let flushed : RawSection :=
        { sec with body := accumBody, startLine := subStart, endLine := subStart + bodyLines - 1 }
      let out2 := out ++ [flushed]
      let lc2 := linesConsumed + bodyLines + 1
      splitLoop sec maxTokens rest para (sec.startLine + lc2) lc2 out2
    else
      splitLoop sec maxTokens rest candidate subStart linesConsumed out

/-- `splitSections(sections, maxTokens)` from chunker.ts. -/
def splitSections (sections : List RawSection) (maxTokens : Nat) :
    List RawSection :=
  sections.flatMap fun sec =>
    if estimateTokens sec.body ≤ maxTokens then [sec]
    else splitLoop sec maxTokens (splitParas sec.body) "" sec.startLine 0 []

/-- Chunker options (interface `ChunkOptions`). -/
structure ChunkOptions where
  maxTokens : Nat
  minTokens : Nat
deriving Repr, DecidableEq

/-- `makeChunk` from chunker.ts. -/
def makeChunk (file title : String) (headings : List String) (body : String)
    (s e idx : Nat) : Chunk :=
  { id := file ++ ":" ++ toString idx
    file := file
    title := title
    headings := joinSep " > " headings
    body := body
    startLine := s
    endLine := e
    tokenEstimate := estimateTokens body }

/-- `content.split("\n")`. -/
def contentLines (content : String) : List String :=
  splitChar '\n' content

/-- The lines of the frontmatter-stripped text. -/
def strippedLinesOf (content : String) : List String :=
  splitChar '\n' (stripFrontmatter content)

/-- `lineOffset = lines.length - strippedLines.length`. -/
def lineOffsetOf (content : String) : Nat :=
  (contentLines content).length - (strippedLinesOf content).length

/-- `section.headings[section.headings.length - 1] || fileTitle(filePath)`:
the last heading if present and non-empty, else the file title. -/
def chunkTitle (filePath : String) (hs : List String) : String :=
  match hs.getLast? with
  | some t => if t = "" then fileTitle (some filePath) else t
  | none => fileTitle (some filePath)

/-- `chunkMarkdown(content, filePath, options)` from chunker.ts, with the
result of the external mdast parse of the stripped text supplied as
`children`. -/
def chunkMarkdown (content : String) (children : List MdNode)
    (filePath : String) (opts : ChunkOptions) : List Chunk :=
  if jsTrim content = "" then []
  else
    let stripped := stripFrontmatter content
    if jsTrim stripped = "" then []
    else
      let lines := contentLines content
      let strippedLines := strippedLinesOf content
      let off := lineOffsetOf content
      let sections := extractSections children strippedLines off
      if sections = [] then
        let body := jsTrim stripped
        if body = "" then []
        else
          [makeChunk filePath (fileTitle (some filePath)) [fileTitle (some filePath)]
            body (off + 1) lines.length 0]
      else
        let merged := mergeSections sections opts.minTokens
        let final := splitSections merged opts.maxTokens
        let nonEmpty := final.filter (fun s => 0 < (jsTrim s.body).length)
        nonEmpty.enum.map fun p => makeChunk filePath (chunkTitle filePath p.2.headings)
          p.2.headings p.2.body p.2.startLine p.2.endLine p.1

/-- `DEFAULT_STOP_WORDS` from search.ts. -/
def stopWords : List String :=
  ["a", "an", "and", "are", "as", "at", "be", "by", "for", "from", "how", "in",
   "is", "it", "of", "on", "or", "that", "the", "this", "to", "what", "when",
   "where", "which", "with"]

/-- A character of the tokenizer class `[a-z0-9_./[\]():-]`. -/
def tokenChar (c : Char) : Bool :=
  ('a' ≤ c && c ≤ 'z') || ('0' ≤ c && c ≤ '9') ||
    c = '_' || c = '.' || c = '/' || c = '[' || c = ']' ||
    c = '(' || c = ')' || c = ':' || c = '-'

/-- A character of the symbol-token class `[A-Za-z0-9_./[\]():-]`. -/
def symChar (c : Char) : Bool :=
  tokenChar c || ('A' ≤ c && c ≤ 'Z')

/-- A separator character (`/[._/:[\]():-]/`). -/
def sepChar (c : Char) : Bool :=
  c = '.' || c = '_' || c = '/' || c = ':' || c = '[' || c = ']' ||
    c = '(' || c = ')' || c = '-'

/-- Collect the maximal runs of characters satisfying `p` (equivalent to
splitting on the complement and dropping empty pieces). -/
def runsGo (p : Char → Bool) : List Char → List Char → List (List Char)
  | [], acc => if acc = [] then [] else [acc.reverse]
  | c :: rest, acc =>
    if p c then runsGo p rest (c :: acc)
    else if acc = [] then runsGo p rest []
    else acc.reverse :: runsGo p rest []

/-- `tokenizeWords` from search.ts: lowercase, split on non-token runs,
drop empties. -/
def tokenizeWords (s : String) : List String :=
  (runsGo tokenChar (toLowerS s).toList []).map String.mk

/-- Keep the first occurrence of each element (JS `Set` insertion
semantics). -/
def dedupFirstGo (seen : List String) : List String → List String
  | [] => []
  | x :: rest =>
    if seen.contains x then dedupFirstGo seen rest
    else x :: dedupFirstGo (x :: seen) rest

def dedupFirst (l : List String) : List String :=
  dedupFirstGo [] l

/-- Does the token contain a lowercase-to-uppercase transition
(`/[a-z][A-Z]/`)? -/
def hasCamel : List Char → Bool
  | a :: b :: rest =>
    (('a' ≤ a && a ≤ 'z') && ('A' ≤ b && b ≤ 'Z')) || hasCamel (b :: rest)
  | _ => false

/-- `extractSymbols` from search.ts: maximal symbol-class runs of length
≥ 3 containing a separator or a camel-case transition, lower-cased and
deduplicated in first-seen order. -/
def extractSymbols (query : String) : List String :=
  let raw := (runsGo symChar query.toList []).filter (fun t => 3 ≤ t.length)
  let hits := raw.filter (fun t => t.any sepChar || hasCamel t)
  dedupFirst (hits.map (fun t => toLowerS (String.mk t)))

/-- `QuerySignals` from search.ts. -/
structure QuerySignals where
  facets : List String
  symbols : List String
deriving Repr, DecidableEq

/-- `buildQuerySignals` from search.ts. -/
def buildQuerySignals (query : String) : QuerySignals :=
  let words := tokenizeWords query
  let facets := dedupFirst (words.filter
    (fun word => 3 ≤ word.length && !(stopWords.contains word)))
  { facets := facets.take 16
    symbols := (extractSymbols query).take 12 }

/-- `SearchResult` from types.ts (plus the `tokenEstimate` field that
`toSearchResult` adds at runtime).  Scores are modelled as rationals. -/
structure SearchResult where
  score : ℚ
  file : String
  lines : Nat × Nat
  headings : List String
  body : String
  tokenEstimate : Nat
deriving Repr, DecidableEq, Inhabited

/-- `EnrichedResult` from search.ts: a raw MiniSearch hit (id + score)
joined with its chunk.  The MiniSearch engine itself is external, so the
enriched hit list is passed in as data. -/
structure EnrichedResult where
  id : String
  score : ℚ
  chunk : Chunk
deriving Repr, DecidableEq, Inhabited

/-- `SearchOptions` (the file filter is applied inside the external
`searchEnriched` stage, i.e. before the lists modelled here). -/
structure SearchOptions where
  maxResults : Nat
deriving Repr, DecidableEq

/-- `chunk.headings.split(" > ")`. -/
def splitHeadingsL : List Char → List Char → List (List Char)
  | ' ' :: '>' :: ' ' :: rest, acc => acc.reverse :: splitHeadingsL rest []
  | c :: rest, acc => splitHeadingsL rest (c :: acc)
  | [], acc => [acc.reverse]

/-- `toSearchResult` from search.ts. -/
def toSearchResult (entry : EnrichedResult) : SearchResult :=
  { score := entry.score
    file := entry.chunk.file
    lines := (entry.chunk.startLine, entry.chunk.endLine)
    headings := (splitHeadingsL entry.chunk.headings.toList []).map String.mk
    body := entry.chunk.body
    tokenEstimate := entry.chunk.tokenEstimate }

/-- `Candidate` from search.ts. -/
structure Candidate where
  chunk : Chunk
  result : SearchResult
  staticRelevance : ℚ
  matchedFacets : Finset String
  matchedSymbols : Finset String
  signatureTokens : Finset String
deriving DecidableEq, Inhabited

/-- `Math.max(...enriched.map((e) => e.searchResult.score), 1)`. -/
def maxScoreOf (enriched : List EnrichedResult) : ℚ :=
  enriched.foldl (fun m e => max m e.score) 1

/-- The signature-token accumulation loop of `buildSignatureTokenSet`
(adds qualifying tokens, stops once the set reaches 32). -/
def sigGo (seen : List String) : List String → List String
  | [] => seen
  | t :: rest =>
    let seen2 :=
      if 3 ≤ t.length && !(stopWords.contains t) && !(seen.contains t)
      then seen ++ [t] else seen
    if 32 ≤ seen2.length then seen2 else sigGo seen2 rest

/-- `buildSignatureTokenSet` from search.ts. -/
def buildSignatureTokenSet (chunk : Chunk) : Finset String :=
  (sigGo [] (tokenizeWords (chunk.file ++ " " ++ chunk.title ++ " " ++ chunk.headings))).toFinset

/-- `buildCandidates` from search.ts. -/
def buildCandidates (enriched : List EnrichedResult) (query : String) :
    List Candidate :=
  let signals := buildQuerySignals query
  let maxBase := maxScoreOf enriched
  enriched.map fun entry =>
    let result := toSearchResult entry
    let text := toLowerS (entry.chunk.file ++ "\n" ++ entry.chunk.headings ++ "\n"
      ++ entry.chunk.title ++ "\n" ++ entry.chunk.body)
    let facetHits := (signals.facets.filter (fun facet => hasSubS text facet)).toFinset
    let symbolHits := (signals.symbols.filter (fun symbol => hasSubS text symbol)).toFinset
    let normalizedBaseScore := entry.score / maxBase
    let facetCoverage := if 0 < signals.facets.length
      then (facetHits.card : ℚ) / signals.facets.length else 0
    let symbolCoverage := if 0 < signals.symbols.length
      then (symbolHits.card : ℚ) / signals.symbols.length else 0
    let tokenPenalty := min 1 ((entry.chunk.tokenEstimate : ℚ) / 500)
    { chunk := entry.chunk
      result := result
      staticRelevance := normalizedBaseScore * 0.66 + facetCoverage * 0.2
        + symbolCoverage * 0.14 - tokenPenalty * 0.08
      matchedFacets := facetHits
      matchedSymbols := symbolHits
      signatureTokens := buildSignatureTokenSet entry.chunk }

/-- `countNewHits` from search.ts. -/
def countNewHits (values covered : Finset String) : Nat :=
  (values.filter (fun v => v ∉ covered)).card

/-- `jaccard` from search.ts. -/
def jaccard (left right : Finset String) : ℚ :=
  if left.card = 0 ∨ right.card = 0 then 0
  else
    let intersection := (left ∩ right).card
    let union := left.card + right.card - intersection
    if union = 0 then 0 else (intersection : ℚ) / union

/-- `maxSimilarity` from search.ts. -/
def maxSimilarity (candidate : Candidate) (selected : List Candidate) : ℚ :=
  selected.foldl (fun m prior => max m (jaccard candidate.signatureTokens prior.signatureTokens)) 0

/-- The per-candidate score computed inside the reranker's greedy loop. -/
def iterationScore (signals : QuerySignals) (coveredFacets coveredSymbols : Finset String)
    (selected : List Candidate) (candidate : Candidate) : ℚ :=
  let newFacetHits := countNewHits candidate.matchedFacets coveredFacets
  let newSymbolHits := countNewHits candidate.matchedSymbols coveredSymbols
  let facetGain := if 0 < signals.facets.length
    then (newFacetHits : ℚ) / signals.facets.length else 0
  let symbolGain := if 0 < signals.symbols.length
    then (newSymbolHits : ℚ) / signals.symbols.length else 0
  let overlapPenalty := maxSimilarity candidate selected * 0.22
  let sameFilePenalty : ℚ :=
    if selected.any (fun s => s.chunk.file = candidate.chunk.file) then 0.08 else 0
  let marginalHits : ℚ := (newFacetHits : ℚ) + (newSymbolHits : ℚ) * 1.5
  let tokenEfficiency := min 1 ((marginalHits * 80)
    / max 80 (if candidate.chunk.tokenEstimate = 0 then (1 : ℚ) else candidate.chunk.tokenEstimate))
  candidate.staticRelevance + facetGain * 0.5 + symbolGain * 0.35
    + tokenEfficiency * 0.18 - overlapPenalty - sameFilePenalty

/-- The `bestIndex`/`bestScore` scan of the greedy loop (`⊥` models the
`Number.NEGATIVE_INFINITY` initial value, `score > bestScore` is a strict
comparison). -/
def scanBest : List ℚ → Nat → Nat → WithBot ℚ → Nat × WithBot ℚ
  | [], _, bi, bs => (bi, bs)
  | s :: rest, i, bi, bs =>
    if bs < (s : WithBot ℚ) then scanBest rest (i + 1) i (s : WithBot ℚ)
    else scanBest rest (i + 1) bi bs

def findBest (scores : List ℚ) : Nat × WithBot ℚ :=
  scanBest scores 0 0 ⊥

/-- The greedy selection loop of `rerankCandidates`.  The loop runs while
`selected.length < maxResults ∧ remaining ≠ []`; since each iteration adds
exactly one candidate, a fuel of `maxResults` (or more) never runs out
before the loop condition fails, so the explicit fuel only bounds the
recursion. -/
def rerankLoop (signals : QuerySignals) (maxResults : Nat) :
    Nat → List Candidate → List Candidate → Finset String → Finset String →
    List Candidate
  | 0, _, selected, _, _ => selected
  | fuel + 1, remaining, selected, coveredFacets, coveredSymbols =>
    if selected.length < maxResults ∧ remaining ≠ [] then
      let scores := remaining.map (iterationScore signals coveredFacets coveredSymbols selected)
      let best := findBest scores
      let bestScore := (best.2).unbot' 0
      let chosen := remaining.getD best.1 default
      rerankLoop signals maxResults fuel (remaining.eraseIdx best.1)
        (selected ++ [{ chosen with result := { chosen.result with score := bestScore } }])
        (coveredFacets ∪ chosen.matchedFacets)
        (coveredSymbols ∪ chosen.matchedSymbols)
    else selected

/-- `rerankCandidates` from search.ts. -/
def rerankCandidates (candidates : List Candidate) (maxResults : Nat)
    (query : String) : List Candidate :=
  if candidates.length ≤ 1 then candidates.take maxResults
  else
    let signals := buildQuerySignals query
    if signals.facets = [] ∧ signals.symbols = [] then candidates.take maxResults
    else rerankLoop signals maxResults maxResults candidates [] ∅ ∅

/-- `search` from search.ts, with the enriched hit list (MiniSearch output
joined with chunks, file filter already applied) passed in as data. -/
def search (enriched : List EnrichedResult) (query : String)
    (options : SearchOptions) : List SearchResult :=
  let poolSize := max (options.maxResults * 6) 20
  if enriched.length = 0 then []
  else
    let candidates := buildCandidates (enriched.take poolSize) query
    let reranked := rerankCandidates candidates options.maxResults query
    reranked.map (fun c => { c.result with score := c.result.score })

/-- `searchBaseline` from search.ts over the same enriched hit list. -/
def searchBaseline (enriched : List EnrichedResult) (_query : String)
    (options : SearchOptions) : List SearchResult :=
  (enriched.take options.maxResults).map toSearchResult

/-- Facet gain as the claim states it: newly covered facet hits over total
facets. -/
def facetGainOf (signals : QuerySignals) (coveredFacets : Finset String)
    (c : Candidate) : ℚ :=
  if 0 < signals.facets.length
  then (countNewHits c.matchedFacets coveredFacets : ℚ) / signals.facets.length
  else 0

/-- Symbol gain as the claim states it. -/
def symbolGainOf (signals : QuerySignals) (coveredSymbols : Finset String)
    (c : Candidate) : ℚ :=
  if 0 < signals.symbols.length
  then (countNewHits c.matchedSymbols coveredSymbols : ℚ) / signals.symbols.length
  else 0

/-- Token efficiency as the claim states it:
`min(1, (newFacetHits + 1.5·newSymbolHits)·80 / max(80, sizeEstimate))`. -/
def tokenEfficiencyOf (coveredFacets coveredSymbols : Finset String)
    (c : Candidate) : ℚ :=
  min 1 ((((countNewHits c.matchedFacets coveredFacets : ℚ)
      + (countNewHits c.matchedSymbols coveredSymbols : ℚ) * 1.5) * 80)
    / max 80 (if c.chunk.tokenEstimate = 0 then (1 : ℚ) else c.chunk.tokenEstimate))

/-- `INDEX_VERSION` from search.ts. -/
def INDEX_VERSION : Nat := 3

/-- Field boosts of the search configuration. -/
structure BoostFields where
  title : ℚ
  headings : ℚ
  body : ℚ
deriving Repr, DecidableEq, Inhabited

/-- The resolved configuration (interface `RefdocsConfig`), reduced to the
fields the indexing pipeline reads. -/
structure RefdocsConfig where
  paths : List String
  index : String
  chunkMaxTokens : Nat
  chunkMinTokens : Nat
  boostFields : BoostFields
deriving Repr, DecidableEq, Inhabited

/-- A persisted snapshot (interface `SerializedIndex`); the serialized
MiniSearch blob is carried as an opaque string. -/
structure SerializedIndex where
  version : Nat
  createdAt : String
  miniSearchIndex : String
  chunks : List Chunk
  fileHashes : Option (List (String × String))
  configHash : Option String
deriving Repr, DecidableEq, Inhabited

/-- `buildChunkMap` from search.ts. -/
def buildChunkMap (chunks : List Chunk) : List (String × Chunk) :=
  chunks.map (fun c => (c.id, c))

/-- The record `loadIndex` returns; the in-memory MiniSearch index is
modelled as the list of indexed document ids. -/
structure LoadedIndex where
  index : List String
  chunks : List Chunk
  chunkMap : List (String × Chunk)
  fileHashes : List (String × String)
  configHash : String
deriving Repr, DecidableEq, Inhabited

/-- `loadIndex` from search.ts.  `loadBlob` models the external
`MiniSearch.loadJSON`; the JSON parse of the snapshot file happens before
this function (its failure is handled by the caller). -/
def loadIndex (loadBlob : String → List String) (data : SerializedIndex)
    (_config : RefdocsConfig) : Except String LoadedIndex :=
  if data.version ≠ INDEX_VERSION then
    .error ("Index version mismatch (found v" ++ toString data.version
      ++ ", expected v" ++ toString INDEX_VERSION ++ "). Run `refdocs index` to rebuild.")
  else
    .ok { index := loadBlob data.miniSearchIndex
          chunks := data.chunks
          chunkMap := buildChunkMap data.chunks
          fileHashes := data.fileHashes.getD []
          configHash := data.configHash.getD "" }

/-- Key lookup in a hash record (`oldFileHashes[file]`). -/
def lookupA (l : List (String × String)) (k : String) : Option String :=
  match l with
  | [] => none
  | (k2, v) :: rest => if k2 = k then some v else lookupA rest k

/-- `IndexSummary` from types.ts, with the optional incremental statistics
the coordinator adds. -/
structure IndexSummary where
  filesIndexed : Nat
  chunksCreated : Nat
  indexSizeBytes : Nat
  elapsedMs : Nat
  unchanged : Option Nat
  added : Option Nat
  changed : Option Nat
  removed : Option Nat
deriving Repr, DecidableEq, Inhabited

/-- The external world of the build coordinator: the discovered file list
(`findMarkdownFiles`), file reads, SHA-256 (`node:crypto`), the markdown
parser feeding the chunker, MiniSearch blob (de)serialization, byte
counting and the wall clock. -/
structure BuildEnv where
  files : List String
  read : String → String
  hash : String → String
  parse : String → List MdNode
  stringify : List String → String
  loadBlob : String → List String
  sizeOf : SerializedIndex → Nat
  elapsedMs : Nat
  now : String

/-- `hashFileContent` from the coordinator: SHA-256 of the content. -/
def hashFileContent (env : BuildEnv) (content : String) : String :=
  env.hash content

/-- The canonical encoding of the chunking-relevant configuration that
`hashConfig` feeds to SHA-256 (models `JSON.stringify` of
`chunkMaxTokens`, `chunkMinTokens` and `boostFields`). -/
def encodeConfig (config : RefdocsConfig) : String :=
  "chunkMaxTokens=" ++ toString config.chunkMaxTokens
    ++ ";chunkMinTokens=" ++ toString config.chunkMinTokens
    ++ ";boost.title=" ++ toString config.boostFields.title
    ++ ";boost.headings=" ++ toString config.boostFields.headings
    ++ ";boost.body=" ++ toString config.boostFields.body

/-- `hashConfig` from the coordinator. -/
def hashConfig (env : BuildEnv) (config : RefdocsConfig) : String :=
  env.hash (encodeConfig config)

/-- Chunk one source file (`chunkMarkdown(content, file, {maxTokens,
minTokens})`, with the external parse supplied by the environment). -/
def chunkFile (env : BuildEnv) (config : RefdocsConfig) (file : String) : List Chunk :=
  chunkMarkdown (env.read file) (env.parse (env.read file)) file
    ⟨config.chunkMaxTokens, config.chunkMinTokens⟩

/-- `serializeIndex` from search.ts (as a structured snapshot value). -/
def serializeIndex (env : BuildEnv) (index : List String) (chunks : List Chunk)
    (fileHashes : Option (List (String × String))) (configHash : Option String) :
    SerializedIndex :=
  { version := INDEX_VERSION
    createdAt := env.now
    miniSearchIndex := env.stringify index
    chunks := chunks
    fileHashes := fileHashes
    configHash := configHash }

/-- The result of a build: the reported summary and the snapshot written
to disk. -/
structure BuildResult where
  summary : IndexSummary
  snapshot : SerializedIndex
deriving Repr

/-- The `addedFiles` set of the incremental classification. -/
def addedFilesOf (env : BuildEnv) (old : List (String × String)) : List String :=
  dedupFirst (env.files.filter (fun f => (lookupA old f).isNone))

/-- The `changedFiles` set of the incremental classification. -/
def changedFilesOf (env : BuildEnv) (old : List (String × String)) : List String :=
  dedupFirst (env.files.filter (fun f =>
    match lookupA old f with
    | some h => decide (h ≠ hashFileContent env (env.read f))
    | none => false))

/-- The `unchangedFiles` set of the incremental classification. -/
def unchangedFilesOf (env : BuildEnv) (old : List (String × String)) : List String :=
  dedupFirst (env.files.filter (fun f =>
    match lookupA old f with
    | some h => decide (h = hashFileContent env (env.read f))
    | none => false))

/-- The `deletedFiles` set: prior keys no longer discovered. -/
def deletedFilesOf (env : BuildEnv) (old : List (String × String)) : List String :=
  dedupFirst ((old.map Prod.fst).filter (fun f => !(env.files.contains f)))

/-- `[...changedFiles, ...addedFiles]`: the files that get re-chunked. -/
def filesToChunkOf (env : BuildEnv) (old : List (String × String)) : List String :=
  changedFilesOf env old ++ addedFilesOf env old

/-- `buildIncrementalIndex` from the coordinator. -/
def buildIncrementalIndex (env : BuildEnv) (config : RefdocsConfig)
    (existingIndex : List String) (existingChunks : List Chunk)
    (oldFileHashes : List (String × String)) : BuildResult :=
  let files := env.files
  let newFileHashes := files.map (fun f => (f, hashFileContent env (env.read f)))
  let filesToRemove := dedupFirst (changedFilesOf env oldFileHashes ++ deletedFilesOf env oldFileHashes)
  let keptChunks := existingChunks.filter (fun c => !(filesToRemove.contains c.file))
  let idsToDiscard := (existingChunks.filter (fun c => filesToRemove.contains c.file)).map (fun c => c.id)
  let discardedIndex := existingIndex.filter (fun cid => !(idsToDiscard.contains cid))
  let newChunks := (filesToChunkOf env oldFileHashes).flatMap (chunkFile env config)
  let finalIndex := discardedIndex ++ newChunks.map (fun c => c.id)
  let allChunks := keptChunks ++ newChunks
  let snapshot := serializeIndex env finalIndex allChunks (some newFileHashes)
    (some (hashConfig env config))
  { summary :=
      { filesIndexed := files.length
        chunksCreated := allChunks.length
        indexSizeBytes := env.sizeOf snapshot
        elapsedMs := env.elapsedMs
        unchanged := some (unchangedFilesOf env oldFileHashes).length
        added := some (addedFilesOf env oldFileHashes).length
        changed := some (changedFilesOf env oldFileHashes).length
        removed := some (deletedFilesOf env oldFileHashes).length }
    snapshot := snapshot }

/-- `buildIndex` (full rebuild) from the coordinator. -/
def buildIndex (env : BuildEnv) (config : RefdocsConfig) : BuildResult :=
  let files := env.files
  let fileHashes := files.map (fun f => (f, hashFileContent env (env.read f)))
  let allChunks := files.flatMap (chunkFile env config)
  let index := allChunks.map (fun c => c.id)
  let snapshot := serializeIndex env index allChunks (some fileHashes)
    (some (hashConfig env config))
  { summary :=
      { filesIndexed := files.length
        chunksCreated := allChunks.length
        indexSizeBytes := env.sizeOf snapshot
        elapsedMs := env.elapsedMs
        unchanged := none
        added := none
        changed := none
        removed := none }
    snapshot := snapshot }

/-- `buildAndPersistIndex` from the coordinator.  `stored` is the result
of `existsSync` + `readFileSync` + `JSON.parse` on the snapshot path
(`none` models a missing file or a JSON parse failure); a `loadIndex`
error is caught and, like a config-hash mismatch or the force flag, falls
through to the full rebuild. -/
def buildAndPersistIndex (env : BuildEnv) (config : RefdocsConfig) (force : Bool)
    (stored : Option SerializedIndex) : BuildResult :=
  match force, stored with
  | false, some data =>
    match loadIndex env.loadBlob data config with
    | .ok loaded =>
      if loaded.configHash = hashConfig env config then
        buildIncrementalIndex env config loaded.index loaded.chunks loaded.fileHashes
      else
        buildIndex env config
    | .error _ => buildIndex env config
  | _, _ => buildIndex env config

/-! ### Theorems -/

theorem popGE_of_sorted (stack : List (String × Nat)) (d : Nat)
    (h : stack.Pairwise (fun a b => a.2 < b.2)) :
    popGE stack d = stack.filter (fun x => decide (x.2 < d)) := by
  induction stack using List.reverseRecOn with
  | nil => simp [popGE]
  | append_singleton l a ih =>
    rcases List.pairwise_append.mp h with ⟨hl, _, hrel⟩
    by_cases hd : d ≤ a.2
    · have h1 : popGE (l ++ [a]) d = popGE l d := by
        simp [popGE, List.dropWhile_cons, hd]
      rw [h1, ih hl, List.filter_append]
      have : ¬ a.2 < d := not_lt.mpr hd
      simp [this]
    · have h1 : popGE (l ++ [a]) d = l ++ [a] := by
        simp [popGE, List.dropWhile_cons, hd]
      rw [h1, List.filter_append]
      have hall : ∀ x ∈ l, x.2 < d := by
        intro x hx
        exact lt_trans (hrel x hx a (by simp)) (not_le.mp hd)
      have hfl : l.filter (fun x => decide (x.2 < d)) = l :=
        List.filter_eq_self.mpr (fun x hx => decide_eq_true (hall x hx))
      simp [hfl, not_le.mp hd]

/-- C5: on a new heading of depth *d*, the stack update pops exactly the
entries of depth ≥ d (given the invariant that stack depths strictly
increase root-to-top) and pushes the new entry, so the recorded headingPath
lists the surviving ancestors; concretely, for `# A`, `## B`, `### C`,
`## D` the passage under D carries headingPath `A > D`. -/
theorem heading_stack_pop_and_breadcrumb :
    (∀ (stack : List (String × Nat)) (text : String) (depth : Nat),
        stack.Pairwise (fun a b => a.2 < b.2) →
        updateStack stack text depth
          = stack.filter (fun x => decide (x.2 < depth)) ++ [(text, depth)])
    ∧ (chunkMarkdown
        "# A\n\ncontent a\n\n## B\n\ncontent b\n\n### C\n\ncontent c\n\n## D\n\ncontent d"
        [MdNode.heading 1 "A" 1 1, MdNode.block 3 3, MdNode.heading 2 "B" 5 5,
         MdNode.block 7 7, MdNode.heading 3 "C" 9 9, MdNode.block 11 11,
         MdNode.heading 2 "D" 13 13, MdNode.block 15 15]
        "doc.md" ⟨800, 0⟩).map (fun c => (c.title, c.headings))
      = [("A", "A"), ("B", "A > B"), ("C", "A > B > C"), ("D", "A > D")] := by
  constructor
  · intro stack text depth h
    unfold updateStack
    rw [popGE_of_sorted stack depth h]
  · decide

theorem heading_stack_witness :
    updateStack [("A", 1), ("B", 2), ("C", 3)] "D" 2 = [("A", 1), ("D", 2)] := by
  rw [heading_stack_pop_and_breadcrumb.1 [("A", 1), ("B", 2), ("C", 3)] "D" 2 (by decide)]
  decide

theorem shouldMerge_iff (minTokens : Nat) (prev current : RawSection) :
    shouldMerge minTokens prev current = true
      ↔ (estimateTokens current.body < minTokens ∧ prev.depth = current.depth) := by
  simp [shouldMerge]

/-- C6: in the merge pass a section is absorbed into its immediate
predecessor exactly when its size estimate is strictly below `minTokens`
and its depth equals the predecessor's; on a merge the line range extends
to the absorbed section's end, the breadcrumb stays the predecessor's, and
the absorbed section's own heading line is re-inserted at the top of the
appended text. -/
theorem merge_sibling_only (minTokens : Nat) (acc : List RawSection)
    (prev current : RawSection) (rest : List RawSection) :
    (mergeLoop minTokens acc prev (current :: rest)
      = if estimateTokens current.body < minTokens ∧ prev.depth = current.depth then
          mergeLoop minTokens acc (absorb prev current) rest
        else
          mergeLoop minTokens (acc ++ [prev]) current rest)
    ∧ (absorb prev current).endLine = current.endLine
    ∧ (absorb prev current).startLine = prev.startLine
    ∧ (absorb prev current).headings = prev.headings
    ∧ (absorb prev current).depth = prev.depth
    ∧ (current.headings ≠ [] →
        (absorb prev current).body
          = if prev.body ≠ "" then
              prev.body ++ "\n\n" ++ (formatHeadingLine current ++ "\n\n" ++ current.body)
            else formatHeadingLine current ++ "\n\n" ++ current.body) := by
  refine ⟨?_, rfl, rfl, rfl, rfl, ?_⟩
  · rw [mergeLoop]
    by_cases h : estimateTokens current.body < minTokens ∧ prev.depth = current.depth
    · rw [if_pos ((shouldMerge_iff minTokens prev current).mpr h), if_pos h]
    · rw [if_neg (fun hb => h ((shouldMerge_iff minTokens prev current).mp hb)), if_neg h]
  · intro hne
    have hlast : ∃ last, current.headings.getLast? = some last := by
      cases hg : current.headings.getLast? with
      | none => exact absurd (List.getLast?_eq_none_iff.mp hg) hne
      | some last => exact ⟨last, rfl⟩
    obtain ⟨last, hlast⟩ := hlast
    have hfh : formatHeadingLine current ≠ "" := by
      unfold formatHeadingLine
      rw [hlast]
      intro hcontra
      have hd := congrArg String.data hcontra
      rw [String.data_append, String.data_append] at hd
      simp at hd
    unfold absorb
    simp only [hfh, if_true, ne_eq, not_false_iff, ite_not]

theorem merge_sibling_only_witness :
    (absorb ⟨["P"], 2, "prev body", 1, 4⟩ ⟨["P", "S"], 2, "sib body", 5, 6⟩).body
      = "prev body\n\n## S\n\nsib body" := by
  have h := (merge_sibling_only 100 [] ⟨["P"], 2, "prev body", 1, 4⟩
    ⟨["P", "S"], 2, "sib body", 5, 6⟩ []).2.2.2.2.2 (by decide)
  rw [h]
  decide

/-- C10: a document that is nothing but a leading YAML frontmatter block
(only whitespace remains once the frontmatter is stripped) chunks to the
empty passage list, exactly as empty or whitespace-only input does. -/
theorem frontmatter_only_doc_yields_no_chunks
    (content : String) (children : List MdNode) (filePath : String)
    (opts : ChunkOptions) (h : jsTrim (stripFrontmatter content) = "") :
    chunkMarkdown content children filePath opts = [] := by
  by_cases h1 : jsTrim content = "" <;> simp [chunkMarkdown, h1, h]

theorem frontmatter_only_witness :
    jsTrim (stripFrontmatter "---\ntitle: x\n---\n") = "" ∧
      chunkMarkdown "---\ntitle: x\n---\n" [] "a.md" ⟨800, 100⟩ = [] :=
  ⟨by decide,
    frontmatter_only_doc_yields_no_chunks "---\ntitle: x\n---\n" [] "a.md" ⟨800, 100⟩
      (by decide)⟩

/-- C3 (divergence witness): for a document with content before its first
heading, the preamble passage's heading and title are the literal string
"Untitled" — produced by the no-argument `fileTitle()` call — and not the
file's derived title ("guide" for "guide.md"). -/
theorem preamble_heading_is_untitled :
    (chunkMarkdown "intro text\n\n# A\n\nbody text here"
        [MdNode.block 1 1, MdNode.heading 1 "A" 3 3, MdNode.block 5 5]
        "guide.md" ⟨800, 0⟩).map (fun c => (c.title, c.headings))
      = [("Untitled", "Untitled"), ("A", "A")]
    ∧ fileTitle (some "guide.md") = "guide" := by
  constructor <;> decide

theorem noBlank_append_one (l : List Char) (c : Char) (h1 : noBlank l = true)
    (h2 : l.getLast? = some '\n' → c ≠ '\n') : noBlank (l ++ [c]) = true := by
  induction l using noBlank.induct with
  | case1 => simp [noBlank]
  | case2 x =>
    have hnb : ¬ (x = '\n' ∧ c = '\n') := by
      rintro ⟨hx, hcn⟩
      exact h2 (by simp [hx]) hcn
    simp only [List.cons_append, List.nil_append, noBlank, Bool.and_eq_true,
      Bool.not_eq_true', Bool.and_true]
    rw [Bool.and_eq_false_iff]
    by_cases hx : x = '\n'
    · exact Or.inr (decide_eq_false (fun hcn => hnb ⟨hx, hcn⟩))
    · exact Or.inl (decide_eq_false hx)
  | case3 a b rest ih =>
    simp only [noBlank, Bool.and_eq_true] at h1
    simp only [List.cons_append, noBlank, Bool.and_eq_true]
    refine ⟨h1.1, ?_⟩
    have := ih h1.2 (fun hl => h2 (by rwa [List.getLast?_cons_cons]))
    simpa [List.cons_append] using this

theorem spGo_noBlank (n : Nat) (cs : List Char) (hlen : cs.length ≤ n)
    (skip : Bool) (acc : List Char)
    (hacc : noBlank acc.reverse = true)
    (hsep : acc.head? = some '\n' → cs.head? ≠ some '\n')
    (hskip : skip = true → acc = []) :
    ∀ p ∈ spGo cs skip acc, noBlank p = true := by
  induction n generalizing cs skip acc with
  | zero =>
    have hcs : cs = [] := List.length_eq_zero.mp (Nat.le_zero.mp hlen)
    subst hcs
    intro p hp
    simp only [spGo, List.mem_singleton] at hp
    subst hp
    exact hacc
  | succ n ih =>
    intro p hp
    cases cs with
    | nil =>
      simp only [spGo, List.mem_singleton] at hp
      subst hp
      exact hacc
    | cons c rest =>
      have hlen' : rest.length ≤ n := Nat.le_of_succ_le_succ hlen
      simp only [spGo] at hp
      by_cases hsk : skip = true
      · subst hsk
        have hae : acc = [] := hskip rfl
        subst hae
        rw [if_pos rfl] at hp
        by_cases hc : c = '\n'
        · rw [if_pos hc] at hp
          exact ih rest hlen' true [] hacc (by simp) (fun _ => rfl) p hp
        · rw [if_neg hc] at hp
          exact ih rest hlen' false [c] (by simp [noBlank])
            (by intro h; simp only [List.head?_cons, Option.some.injEq] at h; exact absurd h hc)
            (by simp) p hp
      · have hskf : skip = false := by
          cases skip
          · rfl
          · exact absurd rfl hsk
        subst hskf
        rw [if_neg (by simp)] at hp
        by_cases hcond : c = '\n' ∧ rest.head? = some '\n'
        · have hb : (c = '\n' && rest.head? = some '\n') = true := by
            simp [hcond.1, hcond.2]
          rw [if_pos hb] at hp
          simp only [List.mem_cons] at hp
          cases hp with
          | inl h => subst h; exact hacc
          | inr h =>
            exact ih rest hlen' true [] (by simp [noBlank]) (by simp) (fun _ => rfl) p h
        · have hb : (c = '\n' && rest.head? = some '\n') = false := by
            rcases not_and_or.mp hcond with h | h <;> simp [h]
          rw [if_neg (by simp [hb])] at hp
          have hpush : noBlank (c :: acc).reverse = true := by
            rw [List.reverse_cons]
            refine noBlank_append_one acc.reverse c hacc ?_
            intro hl
            rw [List.getLast?_reverse] at hl
            intro hcn
            subst hcn
            exact hsep hl rfl
          refine ih rest hlen' false (c :: acc) hpush ?_ (by simp) p hp
          intro h
          simp only [List.head?_cons, Option.some.injEq] at h
          subst h
          exact fun hrh => hcond ⟨rfl, hrh⟩

theorem splitParas_noBlank (s : String) : ∀ p ∈ splitParas s, noBlank p.toList = true := by
  intro p hp
  unfold splitParas at hp
  obtain ⟨l, hl, rfl⟩ := List.mem_map.mp hp
  exact spGo_noBlank s.toList.length s.toList le_rfl false [] (by simp [noBlank])
    (by simp) (by simp) l hl

/-- Every output of the paragraph-accumulation loop either fits in
`maxTokens` or is a single paragraph (no blank-line boundary). -/
theorem splitLoop_mem (sec : RawSection) (maxTokens : Nat) :
    ∀ (paras : List String) (accumBody : String) (subStart lc : Nat)
      (out : List RawSection),
      (∀ t ∈ out, estimateTokens t.body ≤ maxTokens ∨ noBlank t.body.toList = true) →
      (estimateTokens accumBody ≤ maxTokens ∨ noBlank accumBody.toList = true) →
      (∀ q ∈ paras, noBlank q.toList = true) →
      ∀ t ∈ splitLoop sec maxTokens paras accumBody subStart lc out,
        estimateTokens t.body ≤ maxTokens ∨ noBlank t.body.toList = true := by
  intro paras
  induction paras with
  | nil =>
    intro accumBody subStart lc out hout hacc _ t ht
    simp only [splitLoop] at ht
    by_cases hb : jsTrim accumBody ≠ ""
    · rw [if_pos hb] at ht
      rcases List.mem_append.mp ht with h | h
      · exact hout t h
      · rw [List.mem_singleton] at h
        subst h
        exact hacc
    · rw [if_neg hb] at ht
      exact hout t ht
  | cons para rest ih =>
    intro accumBody subStart lc out hout hacc hparas t ht
    simp only [splitLoop] at ht
    by_cases hcond : maxTokens <
        estimateTokens (if accumBody ≠ "" then accumBody ++ "\n\n" ++ para else para)
        ∧ accumBody ≠ ""
    · rw [if_pos hcond] at ht
      refine ih para _ _ _ ?_ (Or.inr (hparas para (by simp))) (fun q hq => hparas q (by simp [hq])) t ht
      intro u hu
      rcases List.mem_append.mp hu with h | h
      · exact hout u h
      · rw [List.mem_singleton] at h
        subst h
        exact hacc
    · rw [if_neg hcond] at ht
      refine ih _ _ _ _ hout ?_ (fun q hq => hparas q (by simp [hq])) t ht
      by_cases hle : estimateTokens (if accumBody ≠ "" then accumBody ++ "\n\n" ++ para else para)
          ≤ maxTokens
      · exact Or.inl hle
      · have hae : accumBody = "" := by
          by_contra hne
          exact hcond ⟨Nat.lt_of_not_le hle, hne⟩
        right
        simpa [hae] using hparas para (by simp)

/-- Every section emitted by Pass 3 either fits in `maxTokens` or is a
single undividable paragraph. -/
theorem splitSections_mem (sections : List RawSection) (maxTokens : Nat) :
    ∀ t ∈ splitSections sections maxTokens,
      estimateTokens t.body ≤ maxTokens ∨ noBlank t.body.toList = true := by
  intro t ht
  unfold splitSections at ht
  obtain ⟨sec, _, hmem⟩ := List.mem_flatMap.mp ht
  by_cases hle : estimateTokens sec.body ≤ maxTokens
  · rw [if_pos hle, List.mem_singleton] at hmem
    subst hmem
    exact Or.inl hle
  · rw [if_neg hle] at hmem
    exact splitLoop_mem sec maxTokens (splitParas sec.body) "" sec.startLine 0 []
      (by simp) (Or.inl (by simp [estimateTokens]))
      (splitParas_noBlank sec.body) t hmem

/-- C4 (counterexample): a heading-less two-paragraph document takes the
whole-document path, which bypasses the splitting pass: with `maxTokens =
1` the single emitted passage has `tokenEstimate = 3 > 1` and its body
"aaaa\n\nbbbb" still contains a blank-line boundary. -/
theorem chunk_size_claim_counterexample :
    chunkMarkdown "aaaa\n\nbbbb" [MdNode.block 1 1, MdNode.block 3 3] "x.md" ⟨1, 0⟩
      = [{ id := "x.md:0", file := "x.md", title := "x", headings := "x",
           body := "aaaa\n\nbbbb", startLine := 1, endLine := 3, tokenEstimate := 3 }]
    ∧ ¬ ((3 : Nat) ≤ 1 ∨ noBlank "aaaa\n\nbbbb".toList = true) := by
  constructor <;> decide

theorem dropWhile_head?_false (p : Char → Bool) (l : List Char) (c : Char)
    (h : (l.dropWhile p).head? = some c) : p c = false := by
  induction l with
  | nil => simp [List.dropWhile] at h
  | cons a t ih =>
    by_cases hp : p a
    · rw [List.dropWhile_cons_of_pos hp] at h
      exact ih h
    · rw [List.dropWhile_cons_of_neg hp] at h
      simp only [List.head?_cons, Option.some.injEq] at h
      subst h
      exact Bool.eq_false_iff.mpr hp

theorem dropWhile_eq_self_of_head (p : Char → Bool) (l : List Char)
    (h : ∀ c, l.head? = some c → p c = false) : l.dropWhile p = l := by
  cases l with
  | nil => rfl
  | cons a t =>
    have ha := h a rfl
    rw [List.dropWhile_cons_of_neg (by simp [ha])]

theorem trimL_head?_false (l : List Char) (c : Char)
    (h : (trimL l).head? = some c) : wsChar c = false := by
  unfold trimL at h
  rw [List.head?_reverse] at h
  have hne : ((l.dropWhile wsChar).reverse).dropWhile wsChar ≠ [] := by
    intro he
    rw [he] at h
    simp at h
  have hlast : (((l.dropWhile wsChar).reverse).dropWhile wsChar).getLast?
      = ((l.dropWhile wsChar).reverse).getLast? := by
    conv_rhs => rw [← List.takeWhile_append_dropWhile (p := wsChar)
      (l := (l.dropWhile wsChar).reverse)]
    exact (List.getLast?_append_of_ne_nil _ hne).symm
  rw [hlast, List.getLast?_reverse] at h
  exact dropWhile_head?_false wsChar l c h

theorem trimL_getLast?_false (l : List Char) (c : Char)
    (h : (trimL l).getLast? = some c) : wsChar c = false := by
  unfold trimL at h
  rw [List.getLast?_reverse] at h
  exact dropWhile_head?_false wsChar _ c h

theorem trimL_idem (l : List Char) : trimL (trimL l) = trimL l := by
  have h1 : (trimL l).dropWhile wsChar = trimL l :=
    dropWhile_eq_self_of_head _ _ (trimL_head?_false l)
  have h2 : (trimL l).reverse.dropWhile wsChar = (trimL l).reverse := by
    apply dropWhile_eq_self_of_head
    intro c hc
    rw [List.head?_reverse] at hc
    exact trimL_getLast?_false l c hc
  show ((((trimL l).dropWhile wsChar).reverse).dropWhile wsChar).reverse = trimL l
  rw [h1, h2, List.reverse_reverse]

theorem jsTrim_idem (s : String) : jsTrim (jsTrim s) = jsTrim s := by
  unfold jsTrim
  congr 1
  exact trimL_idem s.toList

/-- C4 (amended): every passage returned by `chunkMarkdown` has a
non-empty trimmed body; and whenever section extraction produced at least
one section — so the output went through the Pass 3 splitter — every
passage either fits within `maxTokens` or its body is a single paragraph
with no blank-line boundary (splitting is never forced inside a
paragraph).  The whole-document passage emitted when no sections exist
bypasses the splitter and is exempt from the size bound, but still has a
non-empty trimmed body. -/
theorem chunk_size_invariant (content : String) (children : List MdNode)
    (filePath : String) (opts : ChunkOptions) :
    ∀ c ∈ chunkMarkdown content children filePath opts,
      jsTrim c.body ≠ ""
      ∧ (extractSections children (strippedLinesOf content) (lineOffsetOf content) ≠ [] →
          c.tokenEstimate ≤ opts.maxTokens ∨ noBlank c.body.toList = true) := by
  intro c hc
  unfold chunkMarkdown at hc
  by_cases h1 : jsTrim content = ""
  · simp [h1] at hc
  · rw [if_neg h1] at hc
    by_cases h2 : jsTrim (stripFrontmatter content) = ""
    · simp [h2] at hc
    · simp only [h2, if_neg, if_false, ite_false, reduceIte] at hc
      by_cases hne : extractSections children (strippedLinesOf content)
          (lineOffsetOf content) = []
      · rw [if_pos hne] at hc
        rw [List.mem_singleton] at hc
        subst hc
        refine ⟨?_, fun hx => absurd hne hx⟩
        simp only [makeChunk]
        rw [jsTrim_idem]
        exact h2
      · rw [if_neg hne] at hc
        obtain ⟨p, hmem, rfl⟩ := List.mem_map.mp hc
        have hsnd : p.2 ∈ (splitSections
            (mergeSections (extractSections children (strippedLinesOf content)
              (lineOffsetOf content)) opts.minTokens) opts.maxTokens).filter
            (fun s => 0 < (jsTrim s.body).length) := by
          have h3 := List.mem_map_of_mem Prod.snd hmem
          rwa [List.enum_map_snd] at h3
        rw [List.mem_filter] at hsnd
        obtain ⟨hin, hlen⟩ := hsnd
        constructor
        · intro he
          simp only [makeChunk] at he
          have hl : (0 : Nat) < (jsTrim p.2.body).length := by
            simpa using hlen
          rw [he] at hl
          simp at hl
        · intro _
          have := splitSections_mem _ opts.maxTokens p.2 hin
          simpa [makeChunk] using this

theorem chunk_size_invariant_witness :
    jsTrim ((chunkMarkdown "# A\n\nbb" [MdNode.heading 1 "A" 1 1, MdNode.block 3 3]
        "a.md" ⟨800, 0⟩).headI.body) ≠ ""
    ∧ ((chunkMarkdown "# A\n\nbb" [MdNode.heading 1 "A" 1 1, MdNode.block 3 3]
        "a.md" ⟨800, 0⟩).headI.tokenEstimate ≤ 800
      ∨ noBlank ((chunkMarkdown "# A\n\nbb" [MdNode.heading 1 "A" 1 1, MdNode.block 3 3]
        "a.md" ⟨800, 0⟩).headI.body).toList = true) :=
  have h := chunk_size_invariant "# A\n\nbb" [MdNode.heading 1 "A" 1 1, MdNode.block 3 3]
    "a.md" ⟨800, 0⟩
    (chunkMarkdown "# A\n\nbb" [MdNode.heading 1 "A" 1 1, MdNode.block 3 3]
      "a.md" ⟨800, 0⟩).headI (by decide)
  ⟨h.1, h.2 (by decide)⟩

/-- The reranker no-op guard: with no facets and no symbols the pool is
returned truncated, in order. -/
theorem rerank_noop (candidates : List Candidate) (maxResults : Nat) (query : String)
    (hf : (buildQuerySignals query).facets = [])
    (hs : (buildQuerySignals query).symbols = []) :
    rerankCandidates candidates maxResults query = candidates.take maxResults := by
  unfold rerankCandidates
  by_cases h : candidates.length ≤ 1
  · rw [if_pos h]
  · rw [if_neg h]
    simp [hf, hs]

/-- C2: when the derived query signals have empty facets and empty
symbols, `search` returns exactly the baseline results: the raw enriched
hits truncated to `maxResults`, same order, same scores. -/
theorem search_noop_eq_baseline (enriched : List EnrichedResult) (query : String)
    (options : SearchOptions)
    (hf : (buildQuerySignals query).facets = [])
    (hs : (buildQuerySignals query).symbols = []) :
    search enriched query options = searchBaseline enriched query options := by
  simp only [search, searchBaseline]
  by_cases he : enriched.length = 0
  · rw [if_pos he]
    have : enriched = [] := List.length_eq_zero.mp he
    subst this
    simp
  · rw [if_neg he, rerank_noop _ _ _ hf hs]
    have hmap : ∀ (l : List EnrichedResult),
        (buildCandidates l query).map (fun c => { c.result with score := c.result.score })
          = l.map toSearchResult := by
      intro l
      simp only [buildCandidates, List.map_map]
      rfl
    have hm : options.maxResults ≤ max (options.maxResults * 6) 20 :=
      le_trans (by omega) (le_max_left _ _)
    rw [List.map_take, hmap, ← List.map_take, List.take_take, min_eq_left hm]

theorem search_noop_witness :
    (buildQuerySignals "the a of").facets = []
    ∧ (buildQuerySignals "the a of").symbols = []
    ∧ search [⟨"x.md:0", 2, ⟨"x.md:0", "x.md", "x", "x", "body", 1, 3, 2⟩⟩]
        "the a of" ⟨2⟩
      = searchBaseline [⟨"x.md:0", 2, ⟨"x.md:0", "x.md", "x", "x", "body", 1, 3, 2⟩⟩]
        "the a of" ⟨2⟩ :=
  ⟨by decide, by decide, search_noop_eq_baseline _ _ _ (by decide) (by decide)⟩

/-- Invariant of the best-score scan: the result dominates the initial
best and every scanned score; it either keeps the initial pair or picks
the first index whose score strictly exceeds everything before it. -/
theorem scanBest_spec (scores : List ℚ) (i0 bi : Nat) (bs : WithBot ℚ) :
    bs ≤ (scanBest scores i0 bi bs).2
    ∧ (∀ j, j < scores.length →
        ((scores.getD j 0 : ℚ) : WithBot ℚ) ≤ (scanBest scores i0 bi bs).2)
    ∧ ((scanBest scores i0 bi bs).1 = bi ∧ (scanBest scores i0 bi bs).2 = bs
      ∨ ∃ j, j < scores.length
          ∧ (scanBest scores i0 bi bs).1 = i0 + j
          ∧ (scanBest scores i0 bi bs).2 = ((scores.getD j 0 : ℚ) : WithBot ℚ)
          ∧ bs < (scanBest scores i0 bi bs).2
          ∧ ∀ k, k < j →
              ((scores.getD k 0 : ℚ) : WithBot ℚ) < (scanBest scores i0 bi bs).2) := by
  induction scores generalizing i0 bi bs with
  | nil => simp [scanBest]
  | cons s rest ih =>
    by_cases h : bs < (s : WithBot ℚ)
    · rw [scanBest, if_pos h]
      obtain ⟨h1, h2, h3⟩ := ih (i0 + 1) i0 (s : WithBot ℚ)
      refine ⟨le_trans (le_of_lt h) h1, ?_, ?_⟩
      · intro j hj
        cases j with
        | zero => simpa using h1
        | succ j' =>
          have := h2 j' (by simpa using hj)
          simpa using this
      · rcases h3 with ⟨hbi, hbs⟩ | ⟨j, hjlen, hbi, hbs, hlt, hfirst⟩
        · right
          refine ⟨0, by simp, by simpa using hbi, by simpa using hbs, ?_, ?_⟩
          · rw [hbs]; exact h
          · intro k hk; omega
        · right
          refine ⟨j + 1, by simpa using hjlen, by rw [hbi]; omega, by simpa using hbs,
            lt_trans h hlt, ?_⟩
          intro k hk
          cases k with
          | zero =>
            rw [hbs] at hlt ⊢
            simpa using hlt
          | succ k' =>
            have := hfirst k' (by omega)
            simpa using this
    · rw [scanBest, if_neg h]
      obtain ⟨h1, h2, h3⟩ := ih (i0 + 1) bi bs
      refine ⟨h1, ?_, ?_⟩
      · intro j hj
        cases j with
        | zero => simpa using le_trans (not_lt.mp h) h1
        | succ j' =>
          have := h2 j' (by simpa using hj)
          simpa using this
      · rcases h3 with ⟨hbi, hbs⟩ | ⟨j, hjlen, hbi, hbs, hlt, hfirst⟩
        · exact Or.inl ⟨hbi, hbs⟩
        · right
          refine ⟨j + 1, by simpa using hjlen, by rw [hbi]; omega, by simpa using hbs,
            hlt, ?_⟩
          intro k hk
          cases k with
          | zero =>
            exact lt_of_le_of_lt (by simpa using (not_lt.mp h)) hlt
          | succ k' =>
            have := hfirst k' (by omega)
            simpa using this

/-- `findBest` on a non-empty score list returns the first index attaining
the maximum (strict improvement scan from `⊥`). -/
theorem findBest_spec (s0 : ℚ) (rest : List ℚ) :
    ∃ i, i < (s0 :: rest).length
      ∧ (findBest (s0 :: rest)).1 = i
      ∧ (findBest (s0 :: rest)).2 = (((s0 :: rest).getD i 0 : ℚ) : WithBot ℚ)
      ∧ (∀ j, j < (s0 :: rest).length → (s0 :: rest).getD j 0 ≤ (s0 :: rest).getD i 0)
      ∧ (∀ k, k < i → (s0 :: rest).getD k 0 < (s0 :: rest).getD i 0) := by
  obtain ⟨h1, h2, h3⟩ := scanBest_spec (s0 :: rest) 0 0 ⊥
  rcases h3 with ⟨hbi, hbs⟩ | ⟨j, hjlen, hbi, hbs, hlt, hfirst⟩
  · exfalso
    have := h2 0 (by simp)
    rw [hbs] at this
    simp at this
  · refine ⟨j, hjlen, by simpa using hbi, hbs, ?_, ?_⟩
    · intro j' hj'
      have := h2 j' hj'
      rw [hbs] at this
      exact_mod_cast this
    · intro k hk
      have := hfirst k hk
      rw [hbs] at this
      exact_mod_cast this

/-- C1: one iteration of the greedy loop.  The per-candidate score is
exactly `staticRelevance + 0.5·facetGain + 0.35·symbolGain +
0.18·tokenEfficiency − maxJaccard·0.22 − (0.08 on a same-file collision)`;
the loop selects the candidate whose score weakly dominates the whole pool
and strictly dominates everything before it (first-index tie-breaking),
removes it from the remaining pool, unions its matched facets and symbols
into the covered sets, and overwrites its output score with the iteration
score. -/
theorem rerank_greedy_step (signals : QuerySignals) (maxResults fuel : Nat)
    (r0 : Candidate) (rest : List Candidate) (selected : List Candidate)
    (coveredFacets coveredSymbols : Finset String)
    (hsel : selected.length < maxResults) :
    (∀ c : Candidate,
      iterationScore signals coveredFacets coveredSymbols selected c
        = c.staticRelevance
          + 0.5 * facetGainOf signals coveredFacets c
          + 0.35 * symbolGainOf signals coveredSymbols c
          + 0.18 * tokenEfficiencyOf coveredFacets coveredSymbols c
          - maxSimilarity c selected * 0.22
          - (if selected.any (fun s => s.chunk.file = c.chunk.file) then (0.08 : ℚ) else 0))
    ∧ ∃ i, i < (r0 :: rest).length
        ∧ (∀ j, j < (r0 :: rest).length →
            ((r0 :: rest).map (iterationScore signals coveredFacets coveredSymbols selected)).getD j 0
              ≤ ((r0 :: rest).map (iterationScore signals coveredFacets coveredSymbols selected)).getD i 0)
        ∧ (∀ k, k < i →
            ((r0 :: rest).map (iterationScore signals coveredFacets coveredSymbols selected)).getD k 0
              < ((r0 :: rest).map (iterationScore signals coveredFacets coveredSymbols selected)).getD i 0)
        ∧ rerankLoop signals maxResults (fuel + 1) (r0 :: rest) selected coveredFacets coveredSymbols
            = rerankLoop signals maxResults fuel
                ((r0 :: rest).eraseIdx i)
                (selected ++ [{ (r0 :: rest).getD i default with
                    result := { ((r0 :: rest).getD i default).result with
                      score := ((r0 :: rest).map
                        (iterationScore signals coveredFacets coveredSymbols selected)).getD i 0 } }])
                (coveredFacets ∪ ((r0 :: rest).getD i default).matchedFacets)
                (coveredSymbols ∪ ((r0 :: rest).getD i default).matchedSymbols) := by
  constructor
  · intro c
    simp only [iterationScore, facetGainOf, symbolGainOf, tokenEfficiencyOf]
    ring
  · obtain ⟨i, hlen, hbi, hbs, hmax, hfirst⟩ :=
      findBest_spec (iterationScore signals coveredFacets coveredSymbols selected r0)
        (rest.map (iterationScore signals coveredFacets coveredSymbols selected))
    have hmc : (r0 :: rest).map (iterationScore signals coveredFacets coveredSymbols selected)
        = iterationScore signals coveredFacets coveredSymbols selected r0
          :: rest.map (iterationScore signals coveredFacets coveredSymbols selected) :=
      List.map_cons _ _ _
    refine ⟨i, ?_, ?_, ?_, ?_⟩
    · simpa using hlen
    · intro j hj
      rw [hmc]
      exact hmax j (by simpa using hj)
    · intro k hk
      rw [hmc]
      exact hfirst k hk
    · rw [rerankLoop, if_pos ⟨hsel, List.cons_ne_nil r0 rest⟩]
      simp only [hmc, hbi, hbs, WithBot.unbot'_coe]

theorem rerank_greedy_step_witness :
    iterationScore ⟨["auth"], []⟩ ∅ ∅ [] default
      = (default : Candidate).staticRelevance
        + 0.5 * facetGainOf ⟨["auth"], []⟩ ∅ default
        + 0.35 * symbolGainOf ⟨["auth"], []⟩ ∅ default
        + 0.18 * tokenEfficiencyOf ∅ ∅ default
        - maxSimilarity default [] * 0.22
        - (if List.any ([] : List Candidate)
              (fun s => s.chunk.file = (default : Candidate).chunk.file)
           then (0.08 : ℚ) else 0) :=
  (rerank_greedy_step ⟨["auth"], []⟩ 1 0 default [] [] ∅ ∅ (by decide)).1 default

theorem hasSubL_append_left (s t n : List Char) (h : hasSubL t n = true) :
    hasSubL (s ++ t) n = true := by
  induction s with
  | nil => simpa using h
  | cons c cs ih =>
    rw [List.cons_append]
    simp only [hasSubL, Bool.or_eq_true]
    exact Or.inr ih

theorem hasSubS_append_left (s t n : String) (h : hasSubS t n = true) :
    hasSubS (s ++ t) n = true := by
  unfold hasSubS at h ⊢
  have hd : (s ++ t).toList = s.toList ++ t.toList := String.data_append s t
  rw [hd]
  exact hasSubL_append_left _ _ _ h

/-- C9: loading a snapshot whose version differs from `INDEX_VERSION`
always fails with an error naming the remedial action (`refdocs index` /
rebuild) and never returns a loaded index; a matching version never raises
that error. -/
theorem loadIndex_version_gate (loadBlob : String → List String)
    (data : SerializedIndex) (config : RefdocsConfig) :
    (data.version ≠ INDEX_VERSION →
      ∃ msg, loadIndex loadBlob data config = .error msg
        ∧ hasSubS msg "rebuild" = true
        ∧ hasSubS msg "refdocs index" = true
        ∧ ∀ r, loadIndex loadBlob data config ≠ .ok r)
    ∧ (data.version = INDEX_VERSION →
      ∃ r, loadIndex loadBlob data config = .ok r) := by
  constructor
  · intro hv
    have herr : loadIndex loadBlob data config
        = .error ("Index version mismatch (found v" ++ toString data.version
            ++ ", expected v" ++ toString INDEX_VERSION ++ "). Run `refdocs index` to rebuild.") := by
      unfold loadIndex
      rw [if_pos hv]
    refine ⟨_, herr, ?_, ?_, ?_⟩
    · exact hasSubS_append_left _ _ _ (by decide)
    · exact hasSubS_append_left _ _ _ (by decide)
    · intro r hok
      rw [herr] at hok
      exact Except.noConfusion hok
  · intro hv
    refine ⟨{ index := loadBlob data.miniSearchIndex, chunks := data.chunks,
              chunkMap := buildChunkMap data.chunks,
              fileHashes := data.fileHashes.getD [],
              configHash := data.configHash.getD "" }, ?_⟩
    unfold loadIndex
    rw [if_neg (by simp [hv])]

theorem loadIndex_version_gate_witness :
    (∃ msg, loadIndex (fun _ => []) ⟨4, "", "", [], none, none⟩
        ⟨[], "i", 800, 100, ⟨2, 3/2, 1⟩⟩ = .error msg
      ∧ hasSubS msg "rebuild" = true
      ∧ hasSubS msg "refdocs index" = true
      ∧ ∀ r, loadIndex (fun _ => []) ⟨4, "", "", [], none, none⟩
          ⟨[], "i", 800, 100, ⟨2, 3/2, 1⟩⟩ ≠ .ok r)
    ∧ (∃ r, loadIndex (fun _ => []) ⟨3, "", "", [], none, none⟩
        ⟨[], "i", 800, 100, ⟨2, 3/2, 1⟩⟩ = .ok r) :=
  ⟨(loadIndex_version_gate (fun _ => []) ⟨4, "", "", [], none, none⟩
      ⟨[], "i", 800, 100, ⟨2, 3/2, 1⟩⟩).1 (by decide),
   (loadIndex_version_gate (fun _ => []) ⟨3, "", "", [], none, none⟩
      ⟨[], "i", 800, 100, ⟨2, 3/2, 1⟩⟩).2 rfl⟩

/-- C8: the force flag, a missing or unparsable snapshot, a `loadIndex`
failure (version mismatch, corrupt data) and a config-hash mismatch all
fall through to the full rebuild — every discovered file is chunked, the
old index is discarded, the summary carries no incremental statistics, and
no error reaches the caller (the function is total over all load
outcomes). -/
theorem load_failure_forces_full_rebuild (env : BuildEnv) (config : RefdocsConfig)
    (force : Bool) (stored : Option SerializedIndex)
    (h : force = true ∨ stored = none
       ∨ (∃ data e, stored = some data ∧ loadIndex env.loadBlob data config = .error e)
       ∨ (∃ data loaded, stored = some data
            ∧ loadIndex env.loadBlob data config = .ok loaded
            ∧ loaded.configHash ≠ hashConfig env config)) :
    buildAndPersistIndex env config force stored = buildIndex env config
    ∧ (buildAndPersistIndex env config force stored).summary.unchanged = none
    ∧ (buildAndPersistIndex env config force stored).summary.added = none
    ∧ (buildAndPersistIndex env config force stored).summary.changed = none
    ∧ (buildAndPersistIndex env config force stored).summary.removed = none
    ∧ (buildAndPersistIndex env config force stored).snapshot.chunks
        = env.files.flatMap (chunkFile env config) := by
  have hmain : buildAndPersistIndex env config force stored = buildIndex env config := by
    rcases h with hf | hn | ⟨data, e, hst, herr⟩ | ⟨data, loaded, hst, hok, hne⟩
    · subst hf
      cases stored <;> rfl
    · subst hn
      cases force <;> rfl
    · subst hst
      cases force with
      | true => rfl
      | false =>
        simp only [buildAndPersistIndex, herr]
    · subst hst
      cases force with
      | true => rfl
      | false =>
        simp only [buildAndPersistIndex, hok]
        rw [if_neg hne]
  refine ⟨hmain, ?_, ?_, ?_, ?_, ?_⟩ <;> rw [hmain] <;> rfl

theorem load_failure_forces_full_rebuild_witness :
    buildAndPersistIndex
      ⟨["a.md"], fun _ => "# A\n\nbb", fun s => s, fun _ => [], fun _ => "",
        fun _ => [], fun _ => 0, 0, ""⟩
      ⟨[], "i", 800, 100, ⟨2, 3/2, 1⟩⟩ false (some ⟨4, "", "", [], none, none⟩)
      = buildIndex
        ⟨["a.md"], fun _ => "# A\n\nbb", fun s => s, fun _ => [], fun _ => "",
          fun _ => [], fun _ => 0, 0, ""⟩
        ⟨[], "i", 800, 100, ⟨2, 3/2, 1⟩⟩ :=
  (load_failure_forces_full_rebuild _ _ false (some ⟨4, "", "", [], none, none⟩)
    (Or.inr (Or.inr (Or.inl ⟨⟨4, "", "", [], none, none⟩, _, rfl, rfl⟩)))).1

theorem dedupFirstGo_eq_self (l : List String) :
    ∀ (seen : List String), l.Nodup → (∀ x ∈ l, seen.contains x = false) →
      dedupFirstGo seen l = l := by
  induction l with
  | nil => intro seen _ _; rfl
  | cons x rest ih =>
    intro seen h1 h2
    have hx : seen.contains x = false := h2 x (List.mem_cons_self x rest)
    simp only [dedupFirstGo, hx, Bool.false_eq_true, if_false]
    congr 1
    refine ih (x :: seen) (List.Nodup.of_cons h1) ?_
    intro y hy
    have hyx : y ≠ x := by
      intro he
      subst he
      exact (List.nodup_cons.mp h1).1 hy
    have hys : seen.contains y = false := h2 y (List.mem_cons_of_mem x hy)
    simp only [List.contains_cons, hys, Bool.or_false]
    simpa using hyx

theorem dedupFirst_eq_self (l : List String) (h : l.Nodup) : dedupFirst l = l :=
  dedupFirstGo_eq_self l [] h (fun _ _ => rfl)

/-- C7: an incremental build in which every discovered file matches the
prior snapshot's hash (and no file was added or removed) carries the prior
passage list over exactly, re-chunks no file, and reports
`unchanged = N`, `changed = added = removed = 0`. -/
theorem incremental_unchanged_identity (env : BuildEnv) (config : RefdocsConfig)
    (data : SerializedIndex)
    (hv : data.version = INDEX_VERSION)
    (hch : data.configHash.getD "" = hashConfig env config)
    (hnd : env.files.Nodup)
    (hmatch : ∀ f ∈ env.files,
      lookupA (data.fileHashes.getD []) f = some (hashFileContent env (env.read f)))
    (hcover : ∀ q ∈ data.fileHashes.getD [], q.1 ∈ env.files) :
    (buildAndPersistIndex env config false (some data)).snapshot.chunks = data.chunks
    ∧ (buildAndPersistIndex env config false (some data)).summary.filesIndexed
        = env.files.length
    ∧ (buildAndPersistIndex env config false (some data)).summary.unchanged
        = some env.files.length
    ∧ (buildAndPersistIndex env config false (some data)).summary.changed = some 0
    ∧ (buildAndPersistIndex env config false (some data)).summary.added = some 0
    ∧ (buildAndPersistIndex env config false (some data)).summary.removed = some 0
    ∧ filesToChunkOf env (data.fileHashes.getD []) = [] := by
  have hadd : addedFilesOf env (data.fileHashes.getD []) = [] := by
    unfold addedFilesOf
    have hf : env.files.filter
        (fun f => (lookupA (data.fileHashes.getD []) f).isNone) = [] := by
      rw [List.filter_eq_nil_iff]
      intro f hf
      rw [hmatch f hf]
      simp
    rw [hf]
    rfl
  have hchg : changedFilesOf env (data.fileHashes.getD []) = [] := by
    unfold changedFilesOf
    have hf : env.files.filter (fun f =>
        match lookupA (data.fileHashes.getD []) f with
        | some h => decide (h ≠ hashFileContent env (env.read f))
        | none => false) = [] := by
      rw [List.filter_eq_nil_iff]
      intro f hf
      rw [hmatch f hf]
      simp
    rw [hf]
    rfl
  have hunch : unchangedFilesOf env (data.fileHashes.getD []) = env.files := by
    unfold unchangedFilesOf
    have hf : env.files.filter (fun f =>
        match lookupA (data.fileHashes.getD []) f with
        | some h => decide (h = hashFileContent env (env.read f))
        | none => false) = env.files := by
      rw [List.filter_eq_self]
      intro f hf
      rw [hmatch f hf]
      simp
    rw [hf]
    exact dedupFirst_eq_self _ hnd
  have hdel : deletedFilesOf env (data.fileHashes.getD []) = [] := by
    unfold deletedFilesOf
    have hf : ((data.fileHashes.getD []).map Prod.fst).filter
        (fun f => !(env.files.contains f)) = [] := by
      rw [List.filter_eq_nil_iff]
      intro f hf
      obtain ⟨q, hq, rfl⟩ := List.mem_map.mp hf
      have hm := hcover q hq
      have : env.files.contains q.1 = true := List.elem_eq_true_of_mem hm
      simp [List.contains, this]
      exact hm
    rw [hf]
    rfl
  have hload : loadIndex env.loadBlob data config
      = .ok ⟨env.loadBlob data.miniSearchIndex, data.chunks, buildChunkMap data.chunks,
          data.fileHashes.getD [], data.configHash.getD ""⟩ := by
    unfold loadIndex
    rw [if_neg (by simp [hv])]
  have hb : buildAndPersistIndex env config false (some data)
      = buildIncrementalIndex env config (env.loadBlob data.miniSearchIndex)
          data.chunks (data.fileHashes.getD []) := by
    simp only [buildAndPersistIndex, hload]
    rw [if_pos hch]
  have hrem : dedupFirst (changedFilesOf env (data.fileHashes.getD [])
      ++ deletedFilesOf env (data.fileHashes.getD [])) = [] := by
    rw [hchg, hdel]
    rfl
  have hkept : data.chunks.filter
      (fun c => !(List.contains ([] : List String) c.file)) = data.chunks := by
    simp
  have hnew : (filesToChunkOf env (data.fileHashes.getD [])).flatMap
      (chunkFile env config) = [] := by
    unfold filesToChunkOf
    rw [hchg, hadd]
    rfl
  refine ⟨?_, ?_, ?_, ?_, ?_, ?_, ?_⟩
  · rw [hb]
    simp only [buildIncrementalIndex, serializeIndex, hrem, hkept, hnew]
    simp
  · rw [hb]
    rfl
  · rw [hb]
    simp only [buildIncrementalIndex, hunch]
  · rw [hb]
    simp only [buildIncrementalIndex, hchg]
    rfl
  · rw [hb]
    simp only [buildIncrementalIndex, hadd]
    rfl
  · rw [hb]
    simp only [buildIncrementalIndex, hdel]
    rfl
  · unfold filesToChunkOf
    rw [hchg, hadd]
    rfl

theorem incremental_unchanged_identity_witness :
    (buildAndPersistIndex
        ⟨["a.md"], fun _ => "# A\n\nbb", fun s => s,
          fun _ => [MdNode.heading 1 "A" 1 1, MdNode.block 3 3], fun _ => "",
          fun _ => [], fun _ => 0, 0, ""⟩
        ⟨["docs"], "i", 800, 100, ⟨2, 3/2, 1⟩⟩ false
        (some ⟨3, "", "", [⟨"a.md:0", "a.md", "A", "A", "bb", 1, 3, 1⟩],
          some [("a.md", "# A\n\nbb")],
          some (encodeConfig ⟨["docs"], "i", 800, 100, ⟨2, 3/2, 1⟩⟩)⟩)).snapshot.chunks
      = [⟨"a.md:0", "a.md", "A", "A", "bb", 1, 3, 1⟩]
    ∧ (buildAndPersistIndex
        ⟨["a.md"], fun _ => "# A\n\nbb", fun s => s,
          fun _ => [MdNode.heading 1 "A" 1 1, MdNode.block 3 3], fun _ => "",
          fun _ => [], fun _ => 0, 0, ""⟩
        ⟨["docs"], "i", 800, 100, ⟨2, 3/2, 1⟩⟩ false
        (some ⟨3, "", "", [⟨"a.md:0", "a.md", "A", "A", "bb", 1, 3, 1⟩],
          some [("a.md", "# A\n\nbb")],
          some (encodeConfig ⟨["docs"], "i", 800, 100, ⟨2, 3/2, 1⟩⟩)⟩)).summary.unchanged
      = some 1 :=
  have h := incremental_unchanged_identity
    ⟨["a.md"], fun _ => "# A\n\nbb", fun s => s,
      fun _ => [MdNode.heading 1 "A" 1 1, MdNode.block 3 3], fun _ => "",
      fun _ => [], fun _ => 0, 0, ""⟩
    ⟨["docs"], "i", 800, 100, ⟨2, 3/2, 1⟩⟩
    ⟨3, "", "", [⟨"a.md:0", "a.md", "A", "A", "bb", 1, 3, 1⟩],
      some [("a.md", "# A\n\nbb")],
      some (encodeConfig ⟨["docs"], "i", 800, 100, ⟨2, 3/2, 1⟩⟩)⟩
    rfl rfl (by decide) (by decide) (by decide)
  ⟨h.1, h.2.2.1⟩

end Refdoc
